import Mathlib

/-!
Verification of the symbol-resolution core of `gdblint` (src/gdblint/src/gdblint.c)
against its natural-language specification.

The C program is shallowly embedded: each C function that the claims depend on is
translated into an executable Lean definition operating on lists, `Fin`-indexed
functions and `Nat`/`Int` arithmetic.  Machine integers are modelled as `Nat` with
explicit reduction modulo 2^32 / 2^64 where the C code relies on wrap-around.
Fallible operations (C code that would dereference a null pointer, or a parse that
fails) return `Option`.
-/

set_option maxRecDepth 40000

namespace Gdblint

/-! ## Command trie

`struct trie_node` (gdblint.c:183-186) has a 94-slot child array indexed by
`c - '!'` for printable characters `'!'..'~'` and an `end` flag.  We model the
child array as a function `Fin 94 → Option Trie` (a `NULL` pointer is `none`)
and the `int end` field as a `Bool` (the code only ever stores 0/false and
1/true in it). -/

inductive Trie : Type where
  | mk (children : Fin 94 → Option Trie) (isEnd : Bool) : Trie

def Trie.children : Trie → Fin 94 → Option Trie
  | ⟨c, _⟩ => c

def Trie.isEnd : Trie → Bool
  | ⟨_, e⟩ => e

/-- `create_node` (gdblint.c:188-200): fresh node, all children `NULL`, `end = false`. -/
def create_node : Trie := ⟨fun _ => none, false⟩

/-- `insert_command` (gdblint.c:202-227) walking one command word (already
encoded as child indices `c - '!'`): walks/creates nodes for each character and
marks the final node terminal. -/
def insert_command : Trie → List (Fin 94) → Trie
  | ⟨ch, _⟩, [] => ⟨ch, true⟩
  | ⟨ch, e⟩, c :: rest =>
      ⟨fun j => if j = c then some (insert_command ((ch c).getD create_node) rest) else ch j, e⟩

/-- The `*root` in/out parameter of `insert_command`: a `NULL` root is replaced
by a fresh node before the walk starts. -/
def insert_command_root (root : Option Trie) (w : List (Fin 94)) : Option Trie :=
  some (insert_command (root.getD create_node) w)

/-- The command trie obtained by inserting a list of command words into an
initially `NULL` root, as `load_gdb_commands` does. -/
def build_trie (cmds : List (List (Fin 94))) : Option Trie :=
  cmds.foldl insert_command_root none

/-- `find_command` (gdblint.c:229-258): walks the trie as far as the token's
characters have children; returns the node reached when the whole token was
consumed, `NULL` otherwise.  Note that the `end` flag of the reached node is
not consulted. -/
def find_command : Trie → List (Fin 94) → Option Trie
  | t, [] => some t
  | t, c :: rest =>
      match t.children c with
      | none => none
      | some child => find_command child rest

/-- `is_gdb_command` (gdblint.c:1343-1351) on an encoded token: `cmdlen` stays 0
unless `find_command` succeeds (in which case it equals the token's length), so
the returned value `found || cmdlen > 0` is true exactly when `find_command`
returned a non-`NULL` node; a `NULL` trie root makes `find_command` return
`NULL`. -/
def is_gdb_command_w (root : Option Trie) (w : List (Fin 94)) : Bool :=
  match root with
  | none => false
  | some t => (find_command t w).isSome

/-- Child index of a printable character, `c - '!'` (gdblint.c:215,242).
Characters outside `'!'..'~'` would index outside the `children` array in C
(undefined behaviour); they are mapped to `none` and never occur in the
tokens the claims are about. -/
def char_index (c : Char) : Option (Fin 94) :=
  if h : 33 ≤ c.toNat ∧ c.toNat ≤ 126 then some ⟨c.toNat - 33, by omega⟩ else none

def encode_token (tok : List Char) : Option (List (Fin 94)) :=
  tok.mapM char_index

/-- `is_gdb_command` on a raw character token. -/
def is_gdb_command (root : Option Trie) (tok : List Char) : Bool :=
  match encode_token tok with
  | some w => is_gdb_command_w root w
  | none => false

/-! ## Fixed keywords and literal classifiers (gdblint.c:1353-1409) -/

/-- The `gdbkeywords` array of `is_gdb_keyword` (gdblint.c:1356-1358). -/
def gdb_keywords : List (List Char) :=
  [['i', 'f'], ['e', 'l', 's', 'e'], ['w', 'h', 'i', 'l', 'e'], ['f', 'o', 'r'],
   ['b', 'r', 'e', 'a', 'k'], ['c', 'o', 'n', 't', 'i', 'n', 'u', 'e'],
   ['e', 'n', 'd'], ['q', 'u', 'i', 't']]

/-- `is_gdb_keyword` (gdblint.c:1353-1367): linear `strcmp` scan over the table. -/
def is_gdb_keyword (token : List Char) : Bool :=
  gdb_keywords.any (fun k => k == token)

/-- The single optional leading sign strip shared by `is_number` and
`is_floating_point` (`if (*token == '-' || *token == '+') ++token;`). -/
def strip_sign (w : List Char) : List Char :=
  match w with
  | c :: rest => if c = '-' ∨ c = '+' then rest else c :: rest
  | [] => []

/-- `is_number` (gdblint.c:1369-1387): empty token is rejected up front; after
the optional sign every remaining character must be a digit (an empty remainder
passes the `while` loop vacuously, so `"-"` and `"+"` count as numbers). -/
def is_number (token : List Char) : Bool :=
  match token with
  | [] => false
  | _ => (strip_sign token).all (·.isDigit)

/-- The scanning loop of `is_floating_point` (gdblint.c:1400-1408): `dec`
records whether the single decimal point has been seen; a non-digit is only
tolerated if it is the first `'.'`; the final result is `dec`. -/
def is_floating_point_loop (dec : Bool) : List Char → Bool
  | [] => dec
  | c :: rest =>
      if c.isDigit then is_floating_point_loop dec rest
      else if dec then false
      else if c = '.' then is_floating_point_loop true rest
      else false

/-- `is_floating_point` (gdblint.c:1389-1409). -/
def is_floating_point (token : List Char) : Bool :=
  match token with
  | [] => false
  | _ => is_floating_point_loop false (strip_sign token)

/-- `is_history_var` (gdblint.c:1284-1311): strip one `'$'`; empty means a bare
history sigil; a second `'$'` alone also passes; otherwise every remaining
character must be a digit (the `do`/`while` checks at least one character). -/
def is_history_var (word : List Char) : Bool :=
  let w1 := match word with
    | '$' :: rest => rest
    | _ => word
  match w1 with
  | [] => true
  | c :: rest =>
      if c = '$' then
        match rest with
        | [] => true
        | _ => rest.all (·.isDigit)
      else (c :: rest).all (·.isDigit)

/-- `is_func_arg` (gdblint.c:1313-1341): strip one `'$'`, require the literal
`"arg"`, then at least one digit and nothing but digits. -/
def is_func_arg (word : List Char) : Bool :=
  let w1 := match word with
    | '$' :: rest => rest
    | _ => word
  match w1 with
  | 'a' :: 'r' :: 'g' :: d :: rest => (d :: rest).all (·.isDigit)
  | _ => false

/-- `is_valid_reference` (gdblint.c:1411-1420): all six filters must reject. -/
def is_valid_reference (root : Option Trie) (token : List Char) : Bool :=
  !is_history_var token && !is_func_arg token && !is_gdb_command root token &&
  !is_gdb_keyword token && !is_number token && !is_floating_point token

/-! ## Trie recognition lemmas -/

theorem find_command_create_node (w : List (Fin 94)) :
    (find_command create_node w).isSome = true ↔ w = [] := by
  cases w with
  | nil => simp [find_command]
  | cons c rest => simp [find_command, create_node, Trie.children]

theorem find_command_insert (w v : List (Fin 94)) (t : Trie) :
    (find_command (insert_command t v) w).isSome = true ↔
      (find_command t w).isSome = true ∨ w <+: v := by
  induction w generalizing v t with
  | nil => simp [find_command]
  | cons c w' ih =>
    cases t with
    | mk ch e =>
      cases v with
      | nil =>
        simp [insert_command, find_command, Trie.children, List.prefix_nil]
      | cons d v' =>
        by_cases hcd : c = d
        · subst hcd
          simp only [insert_command, find_command, Trie.children, if_pos, if_true,
            eq_self_iff_true]
          rw [ih]
          cases hch : ch c with
          | some c0 =>
            simp [hch, find_command, Trie.children, List.cons_prefix_cons]
          | none =>
            simp [hch, find_command, Trie.children, find_command_create_node,
              List.cons_prefix_cons]
            rintro rfl
            exact List.nil_prefix
        · simp only [insert_command, find_command, Trie.children, if_neg hcd,
            List.cons_prefix_cons]
          constructor
          · exact Or.inl
          · rintro (h | ⟨h, -⟩)
            · exact h
            · exact absurd h hcd

theorem find_command_foldl (S : List (List (Fin 94))) (t : Trie) (w : List (Fin 94)) :
    (find_command (S.foldl insert_command t) w).isSome = true ↔
      (find_command t w).isSome = true ∨ ∃ s ∈ S, w <+: s := by
  induction S generalizing t with
  | nil => simp
  | cons s S' ih =>
    simp only [List.foldl_cons]
    rw [ih, find_command_insert]
    simp only [List.mem_cons]
    constructor
    · rintro ((h | h) | ⟨x, hx, hp⟩)
      · exact Or.inl h
      · exact Or.inr ⟨s, Or.inl rfl, h⟩
      · exact Or.inr ⟨x, Or.inr hx, hp⟩
    · rintro (h | ⟨x, (rfl | hx), hp⟩)
      · exact Or.inl (Or.inl h)
      · exact Or.inl (Or.inr hp)
      · exact Or.inr ⟨x, hx, hp⟩

theorem build_trie_foldl (S : List (List (Fin 94))) (t : Trie) :
    S.foldl insert_command_root (some t) = some (S.foldl insert_command t) := by
  induction S generalizing t with
  | nil => rfl
  | cons s S' ih => simp [List.foldl_cons, insert_command_root, ih]

theorem is_gdb_command_w_build (S : List (List (Fin 94))) (hS : S ≠ [])
    (w : List (Fin 94)) :
    is_gdb_command_w (build_trie S) w = true ↔ w = [] ∨ ∃ s ∈ S, w <+: s := by
  cases S with
  | nil => exact absurd rfl hS
  | cons s S' =>
    unfold build_trie
    simp only [List.foldl_cons]
    rw [show insert_command_root none s = some (insert_command create_node s) from rfl,
      build_trie_foldl]
    simp only [is_gdb_command_w]
    rw [find_command_foldl, find_command_insert, find_command_create_node]
    simp only [List.mem_cons]
    constructor
    · rintro ((h | h) | ⟨x, hx, hp⟩)
      · exact Or.inl h
      · exact Or.inr ⟨s, Or.inl rfl, h⟩
      · exact Or.inr ⟨x, Or.inr hx, hp⟩
    · rintro (h | ⟨x, (rfl | hx), hp⟩)
      · exact Or.inl (Or.inl h)
      · exact Or.inl (Or.inr hp)
      · exact Or.inr ⟨x, hx, hp⟩

/-! ## Hash-indexed symbol tables

`struct hash_map` (gdblint.c:368-380) is an array of `HASH_SIZE = 1024` bucket
heads; each bucket is a singly-linked chain of `struct symbol` with the head
being the most recently inserted entry.  We model it as a function
`Fin 1024 → List Symbol` with the list in chain order.  Names are modelled as
`List Char` of the bytes of the C string (so they never contain the
terminating NUL).  The build-time duplicate check `__HASHMAP_CHK_DUPLICATES`
is off by default and is not modelled. -/

inductive SymbolType : Type where
  | VAR : SymbolType
  | FUNC : SymbolType
  | NONE : SymbolType
deriving DecidableEq

structure Symbol : Type where
  name : List Char
  linenum : Nat
  type : SymbolType
deriving DecidableEq

/-- `fnv1a` (gdblint.c:670-681) before the final reduction: 32-bit FNV-1a over
the bytes of the name (`unsigned int` arithmetic, hence the mod 2^32). -/
def fnv1a_hash (name : List Char) : Nat :=
  name.foldl (fun h c => ((h ^^^ c.toNat) * 16777619) % 4294967296) 2166136261

/-- `fnv1a`'s returned value, `hash % HASH_SIZE`. -/
def fnv1a (name : List Char) : Fin 1024 :=
  ⟨fnv1a_hash name % 1024, Nat.mod_lt _ (by norm_num)⟩

def SymMap : Type := Fin 1024 → List Symbol

/-- `init_map` (gdblint.c:683-690): all buckets empty. -/
def init_map : SymMap := fun _ => []

/-- `insert_symbol` (gdblint.c:726-759): empty (or null) names are rejected up
front; otherwise a new entry is prepended to the bucket chain at `fnv1a name`.
`strncpy(entry->name, name, sizeof(entry->name) - 1)` copies at most 1023
characters of the name. -/
def insert_symbol (m : SymMap) (name : List Char) (linenum : Nat)
    (type : SymbolType) : SymMap :=
  if name = [] then m
  else fun i =>
    if i = fnv1a name then ⟨name.take 1023, linenum, type⟩ :: m i else m i

/-- The match test of `find_symbol`'s loop (gdblint.c:766-770): exact `strcmp`
on the name, and the kind matches when it is the `NONE` wildcard or equal. -/
def symbol_matches (name : List Char) (type : SymbolType) (e : Symbol) : Bool :=
  decide (e.name = name) && (decide (type = SymbolType.NONE) || decide (type = e.type))

/-- `find_symbol` (gdblint.c:761-774): first match in chain order of the bucket
selected by `fnv1a name`. -/
def find_symbol (m : SymMap) (name : List Char) (type : SymbolType) : Option Symbol :=
  (m (fnv1a name)).find? (symbol_matches name type)

/-- `report_unused` (gdblint.c:1634-1680), with the diagnostic modelled as the
`struct symbol` whose name, kind and definition line it prints.  The inner
`for` loop's condition is `def != NULL && def->linenum != 0`, so the chain walk
stops at the first entry whose `linenum` is 0 (`takeWhile`), it does not skip
it.  Diagnostics are emitted in bucket order, then chain order. -/
def report_unused (no_warn_unused no_warn_unused_func no_warn_unused_var : Bool)
    (defs refs : SymMap) : List Symbol :=
  if no_warn_unused then []
  else
    (List.finRange 1024).flatMap (fun i =>
      ((defs i).takeWhile (fun d => d.linenum != 0)).filterMap (fun d =>
        if no_warn_unused_func ∧ d.type = SymbolType.FUNC then none
        else if no_warn_unused_var ∧ d.type = SymbolType.VAR then none
        else if (find_symbol refs d.name d.type).isNone then some d else none))

/-! ## Symbol table lemmas -/

theorem find_symbol_insert (m : SymMap) (name : List Char) (linenum : Nat)
    (type : SymbolType) (h1 : name ≠ []) (h2 : name.length ≤ 1022) :
    find_symbol (insert_symbol m name linenum type) name type =
      some ⟨name, linenum, type⟩ := by
  have htake : name.take 1023 = name := List.take_of_length_le (by omega)
  have hmatch : symbol_matches name type ⟨name.take 1023, linenum, type⟩ = true := by
    simp only [symbol_matches, htake]
    cases type <;> simp
  unfold find_symbol insert_symbol
  rw [if_neg h1]
  simp only []
  rw [if_pos trivial, List.find?_cons_of_pos _ hmatch, htake]

theorem takeWhile_eq_filter_of_drop {α : Type} (p : α → Bool) (l : List α)
    (h : ∀ x ∈ l.dropWhile p, p x = false) : l.takeWhile p = l.filter p := by
  induction l with
  | nil => rfl
  | cons a l' ih =>
    cases hpa : p a with
    | true =>
      rw [List.takeWhile_cons_of_pos hpa, List.filter_cons_of_pos hpa, ih]
      intro x hx
      exact h x (by rwa [List.dropWhile_cons_of_pos hpa])
    | false =>
      rw [List.takeWhile_cons_of_neg (by simp [hpa]), List.filter_cons_of_neg (by simp [hpa])]
      rw [List.dropWhile_cons_of_neg (by simp [hpa])] at h
      rw [List.filter_eq_nil_iff.mpr]
      intro x hx
      simp [h x (List.mem_cons_of_mem _ hx)]

theorem filterMap_if_eq_filter {α : Type} (q : α → Bool) (l : List α) :
    l.filterMap (fun d => if q d then some d else none) = l.filter q := by
  induction l with
  | nil => rfl
  | cons a l' ih =>
    cases hq : q a with
    | true =>
      rw [@List.filterMap_cons_some α α (fun d => if q d = true then some d else none)
          a l' a (by simp [hq]),
        List.filter_cons_of_pos hq, ih]
    | false =>
      rw [List.filterMap_cons_none (by simp [hq]), List.filter_cons_of_neg (by simp [hq]), ih]

theorem mem_report_unused_linenum (b1 b2 b3 : Bool) (defs refs : SymMap)
    (e : Symbol) (he : e ∈ report_unused b1 b2 b3 defs refs) : e.linenum ≠ 0 := by
  unfold report_unused at he
  split at he
  · simp at he
  · rw [List.mem_flatMap] at he
    obtain ⟨i, -, hmem⟩ := he
    rw [List.mem_filterMap] at hmem
    obtain ⟨d, hd, hde⟩ := hmem
    have hp := List.mem_takeWhile_imp hd
    have : e = d := by
      by_contra hne
      split at hde
      · exact Option.noConfusion hde
      · split at hde
        · exact Option.noConfusion hde
        · split at hde
          · exact hne (Option.some.inj hde).symm
          · exact Option.noConfusion hde
    subst this
    simpa using hp

theorem report_unused_eq_of_sorted (defs refs : SymMap)
    (hord : ∀ i : Fin 1024,
      ∀ d ∈ (defs i).dropWhile (fun d => d.linenum != 0), (d.linenum != 0) = false) :
    report_unused false false false defs refs =
      (List.finRange 1024).flatMap (fun i =>
        (defs i).filter
          (fun d => (find_symbol refs d.name d.type).isNone && d.linenum != 0)) := by
  unfold report_unused
  rw [if_neg (by simp)]
  congr 1
  funext i
  have hf : (fun (d : Symbol) =>
      if false = true ∧ d.type = SymbolType.FUNC then none
      else if false = true ∧ d.type = SymbolType.VAR then none
      else if (find_symbol refs d.name d.type).isNone then some d else none) =
      (fun (d : Symbol) =>
        if (find_symbol refs d.name d.type).isNone then some d else none) := by
    funext d
    simp
  rw [hf, filterMap_if_eq_filter, takeWhile_eq_filter_of_drop _ _ (hord i),
    List.filter_filter]

/-! ## Cache serialization of the symbol tables

`store_map` (gdblint.c:776-860) writes a header line `"%.*s\n"` with the map
name, then, for every bucket in ascending order and every chain entry in chain
order *whose `linenum` is 0*, a row `"%lu,%s,%d,%lu\n"` carrying the bucket
index, the name, the kind tag and the line number.  `load_map`
(gdblint.c:862-950) reads the header with `fscanf("%s\n%n")`, checks the
consumed byte count and the name against the expected map name, then loops
reading rows with `fscanf("%lu,%[^,],%d,%lu\n%n")`, prepending each row to the
bucket *named by the stored index* and stopping at the first row that fails to
parse or whose byte count exceeds the remaining byte budget `len`.

The byte stream is modelled as `List Char` (C strings of the involved bytes;
names coming from C strings never contain NUL).  The `fscanf` directives are
modelled one by one: `%lu` skips whitespace and consumes a nonempty run of
digits, `%[^,]` consumes a nonempty run of non-comma characters, `%d` skips
whitespace and consumes an optional sign and a nonempty run of digits, a
whitespace character in the format consumes any (possibly empty) run of
whitespace, and `%n` reports the bytes consumed so far. -/

/-- The character for one decimal digit. -/
def dec_digit (d : Nat) : Char := Char.ofNat (48 + d)

/-- Decimal rendering of a number, most significant digit first (the digit
loop of `fprintf("%lu")`): divide by 10 until zero, prepending digits.  The
first argument is structural fuel so that the definition evaluates inside the
kernel; any fuel at least the value itself (one division per loop iteration
never needs more) reproduces the loop. -/
def to_dec_core : Nat → Nat → List Char → List Char
  | 0, _, acc => acc
  | _ + 1, 0, acc => acc
  | fuel + 1, n + 1, acc =>
      to_dec_core fuel ((n + 1) / 10) (dec_digit ((n + 1) % 10) :: acc)

/-- Decimal rendering of a `size_t`/nonnegative `int` as printed by
`fprintf("%lu")` / `fprintf("%d")`. -/
def to_dec (n : Nat) : List Char := if n = 0 then ['0'] else to_dec_core n n []

/-- C `isspace` for the default locale. -/
def is_wsp (c : Char) : Bool :=
  c == ' ' || c == '\t' || c == '\n' || c == '\x0b' || c == '\x0c' || c == '\r'

def skip_ws (l : List Char) : List Char := l.dropWhile is_wsp

/-- Value of a most-significant-first digit string. -/
def dec_value (l : List Char) : Nat :=
  l.foldl (fun acc c => acc * 10 + (c.toNat - 48)) 0

/-- A nonempty greedy run of digits (the digit part of `%lu`/`%d`). -/
def parse_digits (l : List Char) : Option (Nat × List Char) :=
  let digs := l.takeWhile (·.isDigit)
  if digs = [] then none else some (dec_value digs, l.dropWhile (·.isDigit))

/-- `%lu`: skip whitespace, then a nonempty digit run. -/
def parse_nat (l : List Char) : Option (Nat × List Char) :=
  parse_digits (skip_ws l)

/-- `%d`: skip whitespace, optional sign, then a nonempty digit run (an empty
remainder fails because `parse_digits []` fails). -/
def parse_int (l : List Char) : Option (Int × List Char) :=
  let l1 := skip_ws l
  if l1.head? = some '-' then (parse_digits l1.tail).map (fun p => (-(p.1 : Int), p.2))
  else if l1.head? = some '+' then (parse_digits l1.tail).map (fun p => ((p.1 : Int), p.2))
  else (parse_digits l1).map (fun p => ((p.1 : Int), p.2))

/-- A literal character in a `scanf` format: matches exactly that next input
character. -/
def expect_char (c : Char) (l : List Char) : Option (List Char) :=
  if l.head? = some c then some l.tail else none

/-- One row read of `load_map`, `fscanf(fp, "%lu,%[^,],%d,%lu\n%n", ...)`:
returns the four fields and the unconsumed remainder of the stream (`%n` is
recovered as the length difference).  The trailing `'\n'` of the format is a
whitespace directive, which consumes any run of whitespace. -/
def parse_row (l : List Char) : Option ((Nat × List Char × Int × Nat) × List Char) :=
  match parse_nat l with
  | none => none
  | some (idx, l1) =>
    match expect_char ',' l1 with
    | none => none
    | some l2 =>
      let name := l2.takeWhile (fun c => c != ',')
      if name = [] then none
      else
        match expect_char ',' (l2.dropWhile (fun c => c != ',')) with
        | none => none
        | some l4 =>
          match parse_int l4 with
          | none => none
          | some (ty, l5) =>
            match expect_char ',' l5 with
            | none => none
            | some l6 =>
              match parse_nat l6 with
              | none => none
              | some (ln, l7) => some ((idx, name, ty, ln), skip_ws l7)

/-- The integer tag `%d` prints for `enum symbol_type` (VAR = 0, FUNC = 1,
NONE = 2). -/
def type_int : SymbolType → Nat
  | SymbolType.VAR => 0
  | SymbolType.FUNC => 1
  | SymbolType.NONE => 2

/-- The `enum symbol_type` obtained by storing a scanned `%d` into
`entry->type`.  `store_map` only ever writes 0, 1 or 2; other values would be
an out-of-range enum in C and are mapped to `NONE` here. -/
def type_of_int (i : Int) : SymbolType :=
  if i = 0 then SymbolType.VAR else if i = 1 then SymbolType.FUNC else SymbolType.NONE

/-- `entry->next = map->table[index]; map->table[index] = entry;`
(gdblint.c:944-945).  The C code indexes the bucket array with the stored
index without a bound check; an index outside `0..1023` would be an
out-of-bounds write (never produced by `store_map`), modelled as a no-op. -/
def prepend_at (m : SymMap) (idx : Nat) (e : Symbol) : SymMap :=
  if h : idx < 1024 then fun j => if j = ⟨idx, h⟩ then e :: m j else m j else m

/-- The row loop of `load_map` (gdblint.c:900-946).  `fuel` bounds the number
of iterations; every successful row consumes at least one character, so any
fuel larger than the stream length reproduces the C loop, which runs until a
row fails to parse or the remaining byte budget `len` is exceeded. -/
def load_rows : Nat → Nat → SymMap → List Char → SymMap
  | 0, _, m, _ => m
  | fuel + 1, budget, m, l =>
    match parse_row l with
    | none => m
    | some ((idx, name, ty, ln), rest) =>
        let nread := l.length - rest.length
        if nread ≤ budget then
          load_rows fuel (budget - nread) (prepend_at m idx ⟨name, ln, type_of_int ty⟩) rest
        else m

/-- `fscanf(fp, "%s\n%n", ...)`: skip whitespace, a nonempty run of
non-whitespace characters, then the whitespace directive. -/
def parse_word (l : List Char) : List Char × List Char :=
  ((skip_ws l).takeWhile (fun c => !is_wsp c), (skip_ws l).dropWhile (fun c => !is_wsp c))

/-- `load_map` (gdblint.c:862-950): header check, then the row loop.  The
header is accepted when `%n` equals `mapname_len` and the scanned word equals
the first `mapname_len` bytes of the expected name (`strncmp`); on mismatch no
row is loaded. -/
def load_map (m : SymMap) (mapname : List Char) (mapname_len : Nat)
    (text : List Char) (len : Nat) : SymMap :=
  let w := (parse_word text).1
  let rest2 := skip_ws (parse_word text).2
  let nread := text.length - rest2.length
  if w = [] then m
  else if nread ≠ mapname_len ∨ w ≠ mapname.take mapname_len then m
  else load_rows (rest2.length + 1) len m rest2

/-- One row written by `store_map`, `fprintf(fp, "%lu,%s,%d,%lu\n", i,
entry->name, entry->type, entry->linenum)`. -/
def store_row (i : Nat) (e : Symbol) : List Char :=
  to_dec i ++ [','] ++ e.name ++ [','] ++ to_dec (type_int e.type) ++ [','] ++
    to_dec e.linenum ++ ['\n']

/-- The row section written by `store_map`: one row per entry with
`linenum == 0`, walking buckets in ascending order and each chain front to
back (the `for` loops of gdblint.c:808-856). -/
def store_rows (m : SymMap) : List Char :=
  (List.finRange 1024).flatMap (fun i =>
    ((m i).filter (fun e => e.linenum == 0)).flatMap (fun e => store_row i.val e))

/-- `store_map` (gdblint.c:776-860): the header `"%.*s\n"` (at most
`mapname_len` characters of the name), then the row section. -/
def store_map (m : SymMap) (mapname : List Char) (mapname_len : Nat) : List Char :=
  mapname.take mapname_len ++ ['\n'] ++ store_rows m

/-- The `(bucket, entry)` pairs whose rows `store_map` writes, in writing
order. -/
def stored_entries (m : SymMap) : List (Nat × Symbol) :=
  (List.finRange 1024).flatMap (fun i =>
    ((m i).filter (fun e => e.linenum == 0)).map (fun e => (i.val, e)))

/-! ## Decimal rendering lemmas -/

theorem dec_digit_isDigit (d : Nat) (h : d < 10) : (dec_digit d).isDigit = true := by
  interval_cases d <;> decide

theorem dec_digit_toNat (d : Nat) (h : d < 10) : (dec_digit d).toNat = 48 + d := by
  interval_cases d <;> decide

theorem isDigit_not_wsp (c : Char) (h : c.isDigit = true) : is_wsp c = false := by
  by_contra hw
  rw [Bool.not_eq_false] at hw
  unfold is_wsp at hw
  simp only [Bool.or_eq_true, beq_iff_eq] at hw
  rcases hw with ((((rfl | rfl) | rfl) | rfl) | rfl) | rfl <;> exact absurd h (by decide)

theorem isDigit_ne_comma (c : Char) (h : c.isDigit = true) : c ≠ ',' := by
  rintro rfl; exact absurd h (by decide)

theorem isDigit_ne_minus (c : Char) (h : c.isDigit = true) : c ≠ '-' := by
  rintro rfl; exact absurd h (by decide)

theorem isDigit_ne_plus (c : Char) (h : c.isDigit = true) : c ≠ '+' := by
  rintro rfl; exact absurd h (by decide)

theorem to_dec_core_div_le (m fuel : Nat) (h : m + 1 ≤ fuel + 1) :
    (m + 1) / 10 ≤ fuel := by
  have := Nat.div_lt_self (Nat.succ_pos m) (show 1 < 10 by norm_num)
  omega

theorem to_dec_core_append (fuel : Nat) : ∀ (n : Nat) (acc : List Char), n ≤ fuel →
    to_dec_core fuel n acc = to_dec_core fuel n [] ++ acc := by
  induction fuel with
  | zero =>
    intro n acc h
    interval_cases n
    rfl
  | succ fuel ih =>
    intro n acc h
    match n with
    | 0 => rfl
    | m + 1 =>
      have hd := to_dec_core_div_le m fuel h
      rw [to_dec_core, ih _ _ hd]
      conv_rhs => rw [to_dec_core, ih _ _ hd]
      simp

theorem to_dec_core_all_digits (fuel : Nat) : ∀ n, n ≤ fuel →
    ∀ c ∈ to_dec_core fuel n [], c.isDigit = true := by
  induction fuel with
  | zero =>
    intro n h c hc
    interval_cases n
    simp [to_dec_core] at hc
  | succ fuel ih =>
    intro n h c hc
    match n, hc with
    | 0, hc => simp [to_dec_core] at hc
    | m + 1, hc =>
      have hd := to_dec_core_div_le m fuel h
      rw [to_dec_core, to_dec_core_append fuel _ _ hd] at hc
      rcases List.mem_append.mp hc with h1 | h1
      · exact ih _ hd c h1
      · rcases List.mem_singleton.mp h1 with rfl
        exact dec_digit_isDigit _ (Nat.mod_lt _ (by norm_num))

theorem to_dec_all_digits (n : Nat) : ∀ c ∈ to_dec n, c.isDigit = true := by
  unfold to_dec
  split
  · simp
  · exact to_dec_core_all_digits n n le_rfl

theorem to_dec_core_ne_nil (fuel n : Nat) (hf : n ≤ fuel) (h : 0 < n) :
    to_dec_core fuel n [] ≠ [] := by
  cases fuel with
  | zero => omega
  | succ fuel =>
    match n, h with
    | m + 1, _ =>
      rw [to_dec_core, to_dec_core_append fuel _ _ (to_dec_core_div_le m fuel hf)]
      simp

theorem to_dec_ne_nil (n : Nat) : to_dec n ≠ [] := by
  unfold to_dec
  split
  · simp
  · exact to_dec_core_ne_nil n n le_rfl (Nat.pos_of_ne_zero (by assumption))

theorem dec_value_append_singleton (xs : List Char) (c : Char) :
    dec_value (xs ++ [c]) = dec_value xs * 10 + (c.toNat - 48) := by
  unfold dec_value
  rw [List.foldl_append]
  simp

theorem dec_value_to_dec_core (fuel : Nat) : ∀ n, n ≤ fuel →
    dec_value (to_dec_core fuel n []) = n := by
  induction fuel with
  | zero =>
    intro n h
    interval_cases n
    simp [to_dec_core, dec_value]
  | succ fuel ih =>
    intro n h
    match n with
    | 0 => simp [to_dec_core, dec_value]
    | m + 1 =>
      have hd := to_dec_core_div_le m fuel h
      rw [to_dec_core, to_dec_core_append fuel _ _ hd, dec_value_append_singleton,
        ih _ hd, dec_digit_toNat _ (Nat.mod_lt _ (by norm_num))]
      omega

theorem dec_value_to_dec (n : Nat) : dec_value (to_dec n) = n := by
  unfold to_dec
  split
  · simp [dec_value]
    omega
  · exact dec_value_to_dec_core n n le_rfl

/-! ## Scanf parsing lemmas -/

/-- A stream remainder that is empty or starts with a digit (how every row
boundary in `store_map`'s output looks). -/
def digit_headed (l : List Char) : Prop :=
  l = [] ∨ ∃ c r, l = c :: r ∧ c.isDigit = true

theorem takeWhile_append_all {α : Type} (p : α → Bool) (A B : List α)
    (h : ∀ a ∈ A, p a = true) : (A ++ B).takeWhile p = A ++ B.takeWhile p := by
  induction A with
  | nil => simp
  | cons a A ih =>
    rw [List.cons_append, List.takeWhile_cons_of_pos (h a (List.mem_cons_self a A)),
      ih (fun x hx => h x (List.mem_cons_of_mem _ hx)), List.cons_append]

theorem dropWhile_append_all {α : Type} (p : α → Bool) (A B : List α)
    (h : ∀ a ∈ A, p a = true) : (A ++ B).dropWhile p = B.dropWhile p := by
  induction A with
  | nil => simp
  | cons a A ih =>
    rw [List.cons_append, List.dropWhile_cons_of_pos (h a (List.mem_cons_self a A)),
      ih (fun x hx => h x (List.mem_cons_of_mem _ hx))]

theorem skip_ws_of_digit_headed (l : List Char) (h : digit_headed l) :
    skip_ws l = l := by
  rcases h with rfl | ⟨c, r, rfl, hc⟩
  · rfl
  · exact List.dropWhile_cons_of_neg (by simp [isDigit_not_wsp c hc])

theorem skip_ws_append_digits (A B : List Char) (hA : ∀ c ∈ A, c.isDigit = true)
    (hne : A ≠ []) : skip_ws (A ++ B) = A ++ B := by
  match A, hne with
  | c :: A', _ =>
    rw [List.cons_append]
    exact List.dropWhile_cons_of_neg
      (by simp [isDigit_not_wsp c (hA c (List.mem_cons_self _ _))])

/-- `parse_digits` on a nonempty digit run followed by a non-digit (or
nothing). -/
theorem parse_digits_exact (A B : List Char) (hA : ∀ c ∈ A, c.isDigit = true)
    (hne : A ≠ []) (hB : B = [] ∨ ∃ c r, B = c :: r ∧ c.isDigit = false) :
    parse_digits (A ++ B) = some (dec_value A, B) := by
  have ht : (A ++ B).takeWhile (·.isDigit) = A := by
    rw [takeWhile_append_all _ _ _ hA]
    rcases hB with rfl | ⟨c, r, rfl, hc⟩
    · simp
    · rw [List.takeWhile_cons_of_neg (by simp [hc])]
      simp
  have hd : (A ++ B).dropWhile (·.isDigit) = B := by
    rw [dropWhile_append_all _ _ _ hA]
    rcases hB with rfl | ⟨c, r, rfl, hc⟩
    · rfl
    · exact List.dropWhile_cons_of_neg (by simp [hc])
  unfold parse_digits
  simp only [ht, hd, if_neg hne]

theorem parse_nat_exact (A B : List Char) (hA : ∀ c ∈ A, c.isDigit = true)
    (hne : A ≠ []) (hB : B = [] ∨ ∃ c r, B = c :: r ∧ c.isDigit = false) :
    parse_nat (A ++ B) = some (dec_value A, B) := by
  unfold parse_nat
  rw [skip_ws_append_digits A B hA hne, parse_digits_exact A B hA hne hB]

theorem parse_int_exact (A B : List Char) (hA : ∀ c ∈ A, c.isDigit = true)
    (hne : A ≠ []) (hB : B = [] ∨ ∃ c r, B = c :: r ∧ c.isDigit = false) :
    parse_int (A ++ B) = some ((dec_value A : Int), B) := by
  cases A with
  | nil => exact absurd rfl hne
  | cons c A' =>
    have hc : c.isDigit = true := hA c (List.mem_cons_self _ _)
    unfold parse_int
    rw [skip_ws_append_digits (c :: A') B hA hne, List.cons_append]
    simp only [List.head?_cons]
    rw [if_neg (by simp [isDigit_ne_minus c hc]),
      if_neg (by simp [isDigit_ne_plus c hc])]
    rw [← List.cons_append, parse_digits_exact (c :: A') B hA hne hB]
    rfl

theorem expect_char_cons (c : Char) (l : List Char) :
    expect_char c (c :: l) = some l := by
  unfold expect_char
  rw [if_pos (by simp)]
  rfl

/-- `parse_row` on one well-formed stored row followed by the next row
boundary: every field is recovered exactly.  The name must be nonempty and
comma-free; the trailing whitespace directive must not eat into the remainder,
which holds because the remainder is empty or starts with a digit. -/
theorem parse_row_build (idx ty ln : Nat) (name rest : List Char)
    (hname : name ≠ []) (hcomma : ∀ c ∈ name, c ≠ ',')
    (hrest : digit_headed rest) :
    parse_row (to_dec idx ++ ',' ::
        (name ++ ',' :: (to_dec ty ++ ',' :: (to_dec ln ++ '\n' :: rest)))) =
      some ((idx, name, (ty : Int), ln), rest) := by
  have h1 : parse_nat (to_dec idx ++ ',' ::
      (name ++ ',' :: (to_dec ty ++ ',' :: (to_dec ln ++ '\n' :: rest)))) =
      some (idx, ',' :: (name ++ ',' :: (to_dec ty ++ ',' :: (to_dec ln ++ '\n' :: rest)))) := by
    have h := parse_nat_exact (to_dec idx)
      (',' :: (name ++ ',' :: (to_dec ty ++ ',' :: (to_dec ln ++ '\n' :: rest))))
      (to_dec_all_digits idx) (to_dec_ne_nil idx)
      (Or.inr ⟨',', name ++ ',' :: (to_dec ty ++ ',' :: (to_dec ln ++ '\n' :: rest)),
        rfl, by decide⟩)
    rwa [dec_value_to_dec] at h
  have h2 : (name ++ ',' :: (to_dec ty ++ ',' :: (to_dec ln ++ '\n' :: rest))).takeWhile
      (fun c => c != ',') = name := by
    rw [takeWhile_append_all _ _ _ (fun a ha => by simp [hcomma a ha])]
    rw [List.takeWhile_cons_of_neg (by simp)]
    simp
  have h3 : (name ++ ',' :: (to_dec ty ++ ',' :: (to_dec ln ++ '\n' :: rest))).dropWhile
      (fun c => c != ',') = ',' :: (to_dec ty ++ ',' :: (to_dec ln ++ '\n' :: rest)) := by
    rw [dropWhile_append_all _ _ _ (fun a ha => by simp [hcomma a ha])]
    exact List.dropWhile_cons_of_neg (by simp)
  have h4 : parse_int (to_dec ty ++ ',' :: (to_dec ln ++ '\n' :: rest)) =
      some ((ty : Int), ',' :: (to_dec ln ++ '\n' :: rest)) := by
    have h := parse_int_exact (to_dec ty) (',' :: (to_dec ln ++ '\n' :: rest))
      (to_dec_all_digits ty) (to_dec_ne_nil ty)
      (Or.inr ⟨',', to_dec ln ++ '\n' :: rest, rfl, by decide⟩)
    rwa [dec_value_to_dec] at h
  have h5 : parse_nat (to_dec ln ++ '\n' :: rest) = some (ln, '\n' :: rest) := by
    have h := parse_nat_exact (to_dec ln) ('\n' :: rest)
      (to_dec_all_digits ln) (to_dec_ne_nil ln)
      (Or.inr ⟨'\n', rest, rfl, by decide⟩)
    rwa [dec_value_to_dec] at h
  have h6 : skip_ws ('\n' :: rest) = rest := by
    have : skip_ws ('\n' :: rest) = skip_ws rest :=
      List.dropWhile_cons_of_pos (by decide)
    rw [this]
    exact skip_ws_of_digit_headed rest hrest
  unfold parse_row
  rw [h1]
  simp only [h2, h3, h4, h5, h6, expect_char_cons, if_neg hname]

/-! ## Round trip of the row section -/

/-- The concatenated rows written for a list of `(bucket, entry)` pairs. -/
def rows_text (pairs : List (Nat × Symbol)) : List Char :=
  pairs.flatMap (fun p => store_row p.1 p.2)

theorem to_dec_cons (n : Nat) : ∃ c r, to_dec n = c :: r ∧ c.isDigit = true := by
  cases h : to_dec n with
  | nil => exact absurd h (to_dec_ne_nil n)
  | cons c r =>
    refine ⟨c, r, rfl, to_dec_all_digits n c ?_⟩
    rw [h]
    exact List.mem_cons_self c r

theorem store_row_shape (i : Nat) (e : Symbol) (rest : List Char) :
    store_row i e ++ rest = to_dec i ++ ',' ::
      (e.name ++ ',' :: (to_dec (type_int e.type) ++ ',' ::
        (to_dec e.linenum ++ '\n' :: rest))) := by
  simp [store_row, List.append_assoc]

theorem store_row_length_pos (i : Nat) (e : Symbol) : 0 < (store_row i e).length := by
  simp [store_row]

theorem rows_text_digit_headed (pairs : List (Nat × Symbol)) :
    digit_headed (rows_text pairs) := by
  cases pairs with
  | nil => exact Or.inl rfl
  | cons p rest =>
    obtain ⟨c, r, hcr, hc⟩ := to_dec_cons p.1
    right
    refine ⟨c, r ++ ',' :: (p.2.name ++ ',' :: (to_dec (type_int p.2.type) ++ ',' ::
      (to_dec p.2.linenum ++ '\n' :: rows_text rest))), ?_, hc⟩
    have : rows_text (p :: rest) = store_row p.1 p.2 ++ rows_text rest := by
      simp [rows_text]
    rw [this, store_row_shape, hcr, List.cons_append]

theorem rows_text_length (pairs : List (Nat × Symbol)) :
    pairs.length ≤ (rows_text pairs).length := by
  induction pairs with
  | nil => simp [rows_text]
  | cons p rest ih =>
    have h1 : rows_text (p :: rest) = store_row p.1 p.2 ++ rows_text rest := by
      simp [rows_text]
    rw [h1, List.length_append, List.length_cons]
    have := store_row_length_pos p.1 p.2
    omega

theorem type_of_type_int (t : SymbolType) : type_of_int (type_int t) = t := by
  cases t <;> rfl

/-- The row loop consumes exactly the rows `store_map` wrote, prepending each
entry at its stored bucket index, provided the names are nonempty and
comma-free, the fuel exceeds the number of rows and the byte budget covers the
row text. -/
theorem load_rows_rows_text (pairs : List (Nat × Symbol)) :
    ∀ (fuel budget : Nat) (m : SymMap),
    (∀ p ∈ pairs, p.2.name ≠ [] ∧ ∀ c ∈ p.2.name, c ≠ ',') →
    pairs.length < fuel →
    (rows_text pairs).length ≤ budget →
    load_rows fuel budget m (rows_text pairs) =
      pairs.foldl (fun mm p => prepend_at mm p.1 p.2) m := by
  induction pairs with
  | nil =>
    intro fuel budget m _ _ _
    cases fuel with
    | zero => rfl
    | succ f => rfl
  | cons p rest ih =>
    intro fuel budget m hwf hfuel hbudget
    obtain ⟨hn, hc⟩ := hwf p (List.mem_cons_self _ _)
    have hrt : rows_text (p :: rest) = store_row p.1 p.2 ++ rows_text rest := by
      simp [rows_text]
    have hrow : parse_row (store_row p.1 p.2 ++ rows_text rest) =
        some ((p.1, p.2.name, (type_int p.2.type : Int), p.2.linenum), rows_text rest) := by
      rw [store_row_shape]
      exact parse_row_build p.1 (type_int p.2.type) p.2.linenum p.2.name
        (rows_text rest) hn hc (rows_text_digit_headed rest)
    cases fuel with
    | zero => omega
    | succ f =>
      rw [hrt]
      simp only [load_rows, hrow]
      have hlen : (store_row p.1 p.2 ++ rows_text rest).length - (rows_text rest).length =
          (store_row p.1 p.2).length := by
        rw [List.length_append]; omega
      rw [hlen]
      have hble : (store_row p.1 p.2).length ≤ budget := by
        rw [hrt, List.length_append] at hbudget
        omega
      rw [if_pos hble]
      have hsym : (⟨p.2.name, p.2.linenum, type_of_int ((type_int p.2.type : Int))⟩ : Symbol)
          = p.2 := by
        have h1 : type_of_int ((type_int p.2.type : Int)) = p.2.type := by
          cases hpt : p.2.type <;> simp [type_int, type_of_int]
        rw [h1]
      rw [hsym, List.foldl_cons]
      refine ih f (budget - (store_row p.1 p.2).length) _
        (fun q hq => hwf q (List.mem_cons_of_mem _ hq)) ?_ ?_
      · simpa using hfuel
      · rw [hrt, List.length_append] at hbudget
        omega

/-! ## From the loaded rows back to bucket contents -/

/-- The map name `"defs"` used by `store_maps`/`load_maps` (with
`mapname_len = sizeof("defs") = 5`, which counts the terminating NUL). -/
def defs_name : List Char := ['d', 'e', 'f', 's']

theorem store_map_defs (m : SymMap) :
    store_map m defs_name 5 =
      'd' :: 'e' :: 'f' :: 's' :: '\n' :: rows_text (stored_entries m) := by
  have h : rows_text (stored_entries m) = store_rows m := by
    unfold rows_text stored_entries store_rows
    rw [List.flatMap_assoc]
    congr 1
    funext i
    rw [List.flatMap_map]
  rw [h]
  unfold store_map
  rw [show defs_name.take 5 = ['d', 'e', 'f', 's'] from by decide]
  simp only [List.cons_append, List.nil_append, List.singleton_append, List.append_assoc]

theorem mem_stored_entries (m : SymMap) (p : Nat × Symbol)
    (hp : p ∈ stored_entries m) :
    ∃ i : Fin 1024, p.1 = i.val ∧ p.2 ∈ m i ∧ p.2.linenum = 0 := by
  unfold stored_entries at hp
  rw [List.mem_flatMap] at hp
  obtain ⟨i, -, hmem⟩ := hp
  rw [List.mem_map] at hmem
  obtain ⟨e, he, hpe⟩ := hmem
  rw [List.mem_filter] at he
  exact ⟨i, by rw [← hpe], by rw [← hpe]; exact he.1, by rw [← hpe]; simpa using he.2⟩

theorem foldl_prepend_bucket (pairs : List (Nat × Symbol)) :
    ∀ (m0 : SymMap) (j : Fin 1024),
    (pairs.foldl (fun mm p => prepend_at mm p.1 p.2) m0) j =
      ((pairs.filter (fun p => p.1 == j.val)).map (fun p => p.2)).reverse ++ m0 j := by
  induction pairs with
  | nil => intro m0 j; simp
  | cons p rest ih =>
    intro m0 j
    rw [List.foldl_cons, ih]
    by_cases hpj : p.1 = j.val
    · have hlt : p.1 < 1024 := hpj ▸ j.isLt
      have hfin : j = ⟨p.1, hlt⟩ := Fin.ext hpj.symm
      have hp : prepend_at m0 p.1 p.2 j = p.2 :: m0 j := by
        unfold prepend_at
        rw [dif_pos hlt]
        exact if_pos hfin
      rw [hp, List.filter_cons_of_pos (by simp [hpj]), List.map_cons,
        List.reverse_cons, List.append_assoc, List.singleton_append]
    · have hp : prepend_at m0 p.1 p.2 j = m0 j := by
        unfold prepend_at
        split
        · exact if_neg (fun hj => hpj (by rw [hj]))
        · rfl
      rw [hp, List.filter_cons_of_neg (by simp [hpj])]

theorem flatMap_eq_single {α β : Type} (l : List α) (j : α) (f : α → List β)
    (hnd : l.Nodup) (hj : j ∈ l) (h : ∀ i ∈ l, i ≠ j → f i = []) :
    l.flatMap f = f j := by
  induction l with
  | nil => cases hj
  | cons a l ih =>
    rw [List.flatMap_cons]
    rcases List.mem_cons.mp hj with rfl | hj'
    · have h2 : l.flatMap f = [] := by
        rw [List.flatMap_eq_nil_iff]
        intro i hi
        exact h i (List.mem_cons_of_mem _ hi)
          (fun hij => (List.nodup_cons.mp hnd).1 (hij ▸ hi))
      rw [h2, List.append_nil]
    · have hane : a ≠ j := fun ha => (List.nodup_cons.mp hnd).1 (ha ▸ hj')
      rw [h a (List.mem_cons_self _ _) hane, List.nil_append]
      exact ih (List.nodup_cons.mp hnd).2 hj'
        (fun i hi => h i (List.mem_cons_of_mem _ hi))

theorem stored_entries_filter (m : SymMap) (j : Fin 1024) :
    (stored_entries m).filter (fun p => p.1 == j.val) =
      ((m j).filter (fun e => e.linenum == 0)).map (fun e => (j.val, e)) := by
  unfold stored_entries
  rw [List.filter_flatMap]
  rw [flatMap_eq_single _ j _ (List.nodup_finRange 1024) (List.mem_finRange j)]
  · rw [List.filter_map]
    have hcomp : ((fun p : Nat × Symbol => p.1 == j.val) ∘ (fun e => (j.val, e))) =
        fun _ => true := by
      funext e
      simp
    rw [hcomp, List.filter_true]
  · intro i _ hij
    rw [List.filter_map]
    have hcomp : ((fun p : Nat × Symbol => p.1 == j.val) ∘ (fun e => (i.val, e))) =
        fun _ => false := by
      funext e
      simp [Fin.val_ne_of_ne hij]
    rw [hcomp, List.filter_false, List.map_nil]

theorem find?_eq_of_all_eq {α : Type} (p : α → Bool) (l : List α) (a : α)
    (h : ∀ x ∈ l, p x = true → x = a) :
    l.find? p = if l.any p then some a else none := by
  induction l with
  | nil => simp
  | cons b l ih =>
    cases hpb : p b with
    | true =>
      have hany : (b :: l).any p = true := by simp [List.any_cons, hpb]
      rw [List.find?_cons_of_pos _ hpb, if_pos hany]
      exact congrArg some (h b (List.mem_cons_self _ _) hpb)
    | false =>
      rw [List.find?_cons_of_neg _ (by simp [hpb]),
        ih (fun x hx => h x (List.mem_cons_of_mem _ hx))]
      simp [List.any_cons, hpb]

/-- Header processing of `load_map` on a stream `"defs\n" ++ rt` whose row
section `rt` starts with a non-whitespace character (or is empty): the header
word parses as `"defs"`, `%n` reads 5, the `strncmp` check passes, and the row
loop starts on `rt` with fuel `rt.length + 1`. -/
theorem load_map_defs_header (rt : List Char) (hrt : skip_ws rt = rt)
    (B : Nat) (m0 : SymMap) :
    load_map m0 defs_name 5 ('d' :: 'e' :: 'f' :: 's' :: '\n' :: rt) B =
      load_rows (rt.length + 1) B m0 rt := by
  unfold load_map
  dsimp only
  have hword : parse_word ('d' :: 'e' :: 'f' :: 's' :: '\n' :: rt) =
      (['d','e','f','s'], '\n' :: rt) := by
    simp [parse_word, skip_ws, List.dropWhile, List.takeWhile, is_wsp]
  have hw1 : (parse_word ('d' :: 'e' :: 'f' :: 's' :: '\n' :: rt)).1 =
      ['d','e','f','s'] := by rw [hword]
  have hw2 : (parse_word ('d' :: 'e' :: 'f' :: 's' :: '\n' :: rt)).2 =
      '\n' :: rt := by rw [hword]
  rw [hw1, hw2]
  have hskip : skip_ws ('\n' :: rt) = rt := by
    have h1 : skip_ws ('\n' :: rt) = skip_ws rt :=
      List.dropWhile_cons_of_pos (by decide)
    rw [h1, hrt]
  rw [hskip]
  have hlen : ('d' :: 'e' :: 'f' :: 's' :: '\n' :: rt).length - rt.length = 5 := by
    simp only [List.length_cons]
    omega
  rw [hlen]
  rw [if_neg (by decide), if_neg (by simp [defs_name])]

theorem length_le_cons5 {a b c d e : Char} (l : List Char) :
    l.length ≤ (a :: b :: c :: d :: e :: l).length := by
  simp only [List.length_cons]
  omega

/-- The row loop on the stored row text rebuilds the stored entries by folded
prepends, for any byte budget covering the text. -/
theorem load_rows_stored (m : SymMap)
    (hwf : ∀ i : Fin 1024, ∀ e ∈ m i, e.name ≠ [] ∧ ∀ c ∈ e.name, c ≠ ',')
    (B : Nat) (hB : (rows_text (stored_entries m)).length ≤ B) :
    load_rows ((rows_text (stored_entries m)).length + 1) B init_map
        (rows_text (stored_entries m)) =
      (stored_entries m).foldl (fun mm p => prepend_at mm p.1 p.2) init_map := by
  refine load_rows_rows_text (stored_entries m) _ _ init_map
    (fun p hp => ?_) ?_ hB
  · obtain ⟨i, -, hmem, -⟩ := mem_stored_entries m p hp
    exact hwf i p.2 hmem
  · have := rows_text_length (stored_entries m)
    omega

/-- Reading off bucket `j` of the rebuilt table: exactly the `linenum == 0`
entries of the original bucket, reversed (loading prepends row by row). -/
theorem stored_fold_bucket (m : SymMap) (j : Fin 1024) :
    ((stored_entries m).foldl (fun mm p => prepend_at mm p.1 p.2) init_map) j =
      ((m j).filter (fun e => e.linenum == 0)).reverse := by
  rw [foldl_prepend_bucket, stored_entries_filter]
  unfold init_map
  rw [List.append_nil, List.map_map]
  have : ((fun p : Nat × Symbol => p.2) ∘ fun e => (j.val, e)) = id := by
    funext e
    rfl
  rw [this, List.map_id]

theorem lsb_halfway (m : SymMap)
    (hwf : ∀ i : Fin 1024, ∀ e ∈ m i, e.name ≠ [] ∧ ∀ c ∈ e.name, c ≠ ',')
    (j : Fin 1024) :
    load_rows ((rows_text (stored_entries m)).length + 1)
        ('d' :: 'e' :: 'f' :: 's' :: '\n' :: rows_text (stored_entries m)).length
        init_map (rows_text (stored_entries m)) j =
      ((m j).filter (fun e => e.linenum == 0)).reverse :=
  (congrFun (load_rows_stored m hwf _
    (length_le_cons5 (rows_text (stored_entries m)))) j).trans
    (stored_fold_bucket m j)

theorem lsb_text (m : SymMap)
    (hwf : ∀ i : Fin 1024, ∀ e ∈ m i, e.name ≠ [] ∧ ∀ c ∈ e.name, c ≠ ',')
    (j : Fin 1024) :
    load_map init_map defs_name 5
        ('d' :: 'e' :: 'f' :: 's' :: '\n' :: rows_text (stored_entries m))
        ('d' :: 'e' :: 'f' :: 's' :: '\n' :: rows_text (stored_entries m)).length j =
      ((m j).filter (fun e => e.linenum == 0)).reverse := by
  rw [load_map_defs_header (rows_text (stored_entries m))
    (skip_ws_of_digit_headed _ (rows_text_digit_headed _)) _ init_map]
  exact lsb_halfway m hwf j

/-- Master round-trip lemma: after `store_map` to the `"defs"` section and a
`load_map` of the result into a fresh table (with the byte budget `load_maps`
would pass, the byte count `store_map` returned), bucket `j` holds exactly the
`linenum == 0` entries of the original bucket `j`, in reverse chain order
(loading prepends row by row). -/
theorem load_store_buckets (m : SymMap)
    (hwf : ∀ i : Fin 1024, ∀ e ∈ m i, e.name ≠ [] ∧ ∀ c ∈ e.name, c ≠ ',')
    (j : Fin 1024) :
    load_map init_map defs_name 5 (store_map m defs_name 5)
        (store_map m defs_name 5).length j =
      ((m j).filter (fun e => e.linenum == 0)).reverse := by
  rw [store_map_defs]
  exact lsb_text m hwf j

/-! ## Logical line assembly (parse_gdbfile, insert_line, calc_linenum_width) -/

/-- `strncatn` (gdblint.c:470-497) as used on NUL-terminated strings: append
to `dest` as many characters of `src` as fit in the remaining capacity
(`dlen` minus the current length of `dest`), never more than `slen` and never
past the end of the source string. -/
def strncatn (dest : List Char) (dlen : Nat) (src : List Char) (slen : Nat) : List Char :=
  dest ++ src.take (min (dlen - dest.length) (min slen src.length))

/-- The state of `parse_gdbfile`'s loop: the `lines_map` being filled
(`lines` and `max_linenum`), the physical-line counter `orig_linenum`
(starting at 1) and the accumulator `current_line`. -/
structure LinesState : Type where
  lines : List (List Char × Nat)
  max_linenum : Nat
  counter : Nat
  acc : List Char

/-- `insert_line` (gdblint.c:630-668): appends a `merged_line` (text truncated
by `strncpy` to the 1024-byte `line` field) and tracks the maximum line
number; a zero `orig_linenum` (or null map/text) is rejected by the guard. -/
def insert_line (st : LinesState) (text : List Char) (n : Nat) : LinesState :=
  if n = 0 then st
  else { st with lines := st.lines ++ [(text.take 1024, n)],
                 max_linenum := max st.max_linenum n }

/-- One iteration of `parse_gdbfile`'s `while` loop (gdblint.c:1459-1478).
`l` is the raw physical line as `fgets` returned it (at most 1023 characters,
normally ending in `'\n'`; it contains no NUL).  A trailing newline is
overwritten with NUL; the continuation test reads `buffer[len - 2]` with `len`
the original length, and a continuation line contributes its first `len - 2`
characters to the accumulator without emitting; otherwise the accumulated
logical line is emitted at the current counter value.  The counter increments
once per physical line in both branches. -/
def parse_gdbfile_step (st : LinesState) (l : List Char) : LinesState :=
  let len := l.length
  let stripped := if l.getLast? = some '\n' then l.dropLast else l
  if len > 1 ∧ l.get? (len - 2) = some '\\' then
    { st with acc := strncatn st.acc 1024 (l.take (len - 2)) len,
              counter := st.counter + 1 }
  else
    let acc2 := strncatn st.acc 1024 stripped len
    let st2 := insert_line st acc2 st.counter
    { st2 with acc := [], counter := st.counter + 1 }

/-- `parse_gdbfile` (gdblint.c:1438-1486) on the whole stream of physical
lines (an unterminated trailing continuation is silently dropped, as in the C
code where the accumulator is never flushed after the loop). -/
def parse_gdbfile (input : List (List Char)) : LinesState :=
  input.foldl parse_gdbfile_step ⟨[], 0, 1, []⟩

/-- The `while (max_linenum) { max_linenum /= 10; ++width; }` loop of
`calc_linenum_width` (gdblint.c:1431-1435).  The first argument is structural
fuel (any fuel at least the value reproduces the loop, which divides by 10
each iteration). -/
def linenum_width_loop : Nat → Nat → Nat
  | 0, _ => 0
  | _ + 1, 0 => 0
  | fuel + 1, n + 1 => 1 + linenum_width_loop fuel ((n + 1) / 10)

/-- `calc_linenum_width` (gdblint.c:1422-1436): starts from width 1, adds one
per decimal digit of the maximum line number seen. -/
def calc_linenum_width (max_linenum : Nat) : Nat :=
  1 + linenum_width_loop max_linenum max_linenum

theorem parse_gdbfile_step_counter (st : LinesState) (l : List Char) :
    (parse_gdbfile_step st l).counter = st.counter + 1 := by
  unfold parse_gdbfile_step
  dsimp only
  split <;> rfl

theorem parse_gdbfile_counter_foldl (input : List (List Char)) :
    ∀ st : LinesState, (input.foldl parse_gdbfile_step st).counter =
      st.counter + input.length := by
  induction input with
  | nil => intro st; simp
  | cons l input ih =>
    intro st
    rw [List.foldl_cons, ih, parse_gdbfile_step_counter]
    simp
    omega

theorem linenum_width_loop_digits (fuel : Nat) : ∀ m, m ≤ fuel →
    linenum_width_loop fuel m = (Nat.digits 10 m).length := by
  induction fuel with
  | zero =>
    intro m h
    interval_cases m
    simp [linenum_width_loop]
  | succ fuel ih =>
    intro m h
    match m with
    | 0 => simp [linenum_width_loop]
    | k + 1 =>
      rw [linenum_width_loop,
        Nat.digits_def' (by norm_num : (1 : Nat) < 10) (Nat.succ_pos k)]
      simp only [List.length_cons, Nat.succ_eq_add_one]
      rw [ih _ (to_dec_core_div_le k fuel h)]
      omega

/-! ## Trie serialization (store_trie / load_trie)

`store_trie` (gdblint.c:260-308) has two code paths.  The in-memory-buffer
path (`fp == NULL`) writes, for each present child in ascending index order,
the child's character (when the running length is below `buflen - 1`),
follows it with a `' '` marker when the *parent's* `end` flag is set, and
recurses with the remaining capacity `buflen - len` (`size_t` arithmetic).
The file-stream path writes only the characters and no marker at all.

`load_trie` (gdblint.c:310-354) is modelled at the point where it matters:
its recursive call `load_trie(&node->children[index], ...)` always hits the
`!*trie` guard (the children of the node just created are all `NULL`) and
returns 0 leaving the child `NULL`; the statement
`node->children[index]->end = (*buffer++ == ' ') ? 1 : 0;` that follows then
dereferences that `NULL` child.  So decoding any nonempty buffer crashes;
`none` models the crash.  (The file path is no better: its loop recurses only
on `' '` bytes — indexing `children[' ' - '!']`, i.e. `children[-1]` — and
then performs the same `NULL`-child dereference.) -/

/-- `size_t` subtraction `a - b` (wrap-around modulo 2^64). -/
def csub64 (a b : Nat) : Nat :=
  (a % 18446744073709551616 + (18446744073709551616 - b % 18446744073709551616)) %
    18446744073709551616

/-- The character written for child index `i`, `(char)(i + '!')`. -/
def idx_char (i : Fin 94) : Char := Char.ofNat (i.val + 33)

/-- The buffer path of `store_trie` (gdblint.c:260-308), returning the bytes
written and the returned length.  `fuel` bounds the recursion depth over the
heap-allocated tree; any fuel at least the trie's depth reproduces the C
recursion, which always terminates on the finite tree. -/
def store_trie : Nat → Trie → Nat → List Char × Nat
  | 0, _, _ => ([], 0)
  | fuel + 1, t, buflen =>
      (List.finRange 94).foldl
        (fun acc i =>
          match t.children i with
          | none => acc
          | some child =>
              let wr :=
                if acc.2 < csub64 buflen 1 then
                  if t.isEnd then (acc.1 ++ [idx_char i, ' '], acc.2 + 2)
                  else (acc.1 ++ [idx_char i], acc.2 + 1)
                else acc
              let res := store_trie fuel child (csub64 buflen wr.2)
              (wr.1 ++ res.1, wr.2 + res.2))
        ([], 0)

/-- The buffer path of `load_trie` (gdblint.c:340-351) called on a fresh
root: for an empty buffer the loop never runs and the created node is
returned; for a nonempty buffer the first iteration dereferences the `NULL`
child its own recursive call refused to fill (see the section comment), which
is modelled as `none`. -/
def load_trie_from_buffer (buf : List Char) : Option Trie :=
  match buf with
  | [] => some create_node
  | _ :: _ => none

/-! ## Single-insert table lemmas (cheap symbolic evaluation of small tables) -/

theorem insert_symbol_bucket (m : SymMap) (name : List Char) (l : Nat)
    (t : SymbolType) (hne : name ≠ []) (i : Fin 1024) :
    insert_symbol m name l t i =
      if i = fnv1a name then ⟨name.take 1023, l, t⟩ :: m i else m i := by
  unfold insert_symbol
  exact congrFun (if_neg hne) i

theorem single_map_entries (name : List Char) (l : Nat) (t : SymbolType)
    (hne : name ≠ []) (i : Fin 1024) (e : Symbol)
    (he : e ∈ insert_symbol init_map name l t i) :
    e = ⟨name.take 1023, l, t⟩ := by
  rw [insert_symbol_bucket init_map name l t hne i] at he
  by_cases hi : i = fnv1a name
  · rw [if_pos hi] at he
    rcases List.mem_cons.mp he with rfl | h
    · rfl
    · exact absurd h (List.not_mem_nil e)
  · rw [if_neg hi] at he
    exact absurd he (List.not_mem_nil e)

theorem store_rows_single (name : List Char) (t : SymbolType) (hne : name ≠ []) :
    store_rows (insert_symbol init_map name 0 t) =
      store_row (fnv1a name).val ⟨name.take 1023, 0, t⟩ := by
  unfold store_rows
  rw [flatMap_eq_single _ (fnv1a name) _ (List.nodup_finRange 1024)
    (List.mem_finRange _) (fun i _ hij => by
      rw [insert_symbol_bucket init_map name 0 t hne i, if_neg hij]
      simp [init_map])]
  rw [insert_symbol_bucket init_map name 0 t hne (fnv1a name), if_pos rfl]
  simp [init_map]

/-! ## Floating-point scanning loop lemmas -/

theorem float_loop_true (l : List Char) :
    is_floating_point_loop true l = true ↔ l.all (·.isDigit) = true := by
  induction l with
  | nil => simp [is_floating_point_loop]
  | cons c rest ih =>
    unfold is_floating_point_loop
    cases hc : c.isDigit with
    | true => simp [hc, ih]
    | false => simp [hc]

theorem float_loop_false (l : List Char) :
    is_floating_point_loop false l = true ↔
      ∃ d1 d2 : List Char, d1.all (·.isDigit) = true ∧ d2.all (·.isDigit) = true ∧
        l = d1 ++ '.' :: d2 := by
  induction l with
  | nil =>
    simp only [is_floating_point_loop, Bool.false_eq_true, false_iff]
    rintro ⟨d1, d2, -, -, h⟩
    cases d1 <;> simp at h
  | cons c rest ih =>
    unfold is_floating_point_loop
    by_cases hc : c.isDigit = true
    · rw [if_pos hc, ih]
      constructor
      · rintro ⟨d1, d2, h1, h2, rfl⟩
        exact ⟨c :: d1, d2, by simp [hc, h1], h2, rfl⟩
      · rintro ⟨d1, d2, h1, h2, heq⟩
        match d1, h1, heq with
        | [], _, heq =>
          exfalso
          have hcd : c = '.' := by
            have := congrArg List.head? heq
            simpa using this
          rw [hcd] at hc
          exact absurd hc (by decide)
        | e :: d1', h1, heq =>
          have hce : c = e := by
            have := congrArg List.head? heq
            simpa using this
          have hrest : rest = d1' ++ '.' :: d2 := by
            have := congrArg List.tail heq
            simpa using this
          have h1' : d1'.all (·.isDigit) = true := by
            simp only [List.all_cons, Bool.and_eq_true] at h1
            exact h1.2
          exact ⟨d1', d2, h1', h2, hrest⟩
    · rw [if_neg hc]
      simp only [Bool.false_eq_true, if_false]
      by_cases hdot : c = '.'
      · rw [if_pos hdot, float_loop_true]
        subst hdot
        constructor
        · intro hall
          exact ⟨[], rest, rfl, hall, rfl⟩
        · rintro ⟨d1, d2, h1, h2, heq⟩
          match d1, h1, heq with
          | [], _, heq =>
            have hrd : rest = d2 := by
              have := congrArg List.tail heq
              simpa using this
            rwa [hrd]
          | e :: d1', h1, heq =>
            exfalso
            have he : '.' = e := by
              have := congrArg List.head? heq
              simpa using this
            have hed : e.isDigit = true := by
              simp only [List.all_cons, Bool.and_eq_true] at h1
              exact h1.1
            rw [← he] at hed
            exact absurd hed (by decide)
      · rw [if_neg hdot]
        simp only [Bool.false_eq_true, false_iff]
        rintro ⟨d1, d2, h1, h2, heq⟩
        match d1, h1, heq with
        | [], _, heq =>
          have : c = '.' := by
            have := congrArg List.head? heq
            simpa using this
          exact hdot this
        | e :: d1', h1, heq =>
          have hce : c = e := by
            have := congrArg List.head? heq
            simpa using this
          have hed : e.isDigit = true := by
            simp only [List.all_cons, Bool.and_eq_true] at h1
            exact h1.1
          rw [← hce] at hed
          exact hc hed

/-! ## Token classifier helper lemmas -/

theorem valid_ref_false_of_keyword (root : Option Trie) (tok : List Char)
    (hk : is_gdb_keyword tok = true) :
    is_valid_reference root tok = false := by
  unfold is_valid_reference
  rw [hk]
  simp

theorem valid_ref_false_of_command (root : Option Trie) (tok : List Char)
    (hc : is_gdb_command root tok = true) :
    is_valid_reference root tok = false := by
  unfold is_valid_reference
  rw [hc]
  simp

theorem is_gdb_keyword_of_mem (tok : List Char) (h : tok ∈ gdb_keywords) :
    is_gdb_keyword tok = true := by
  unfold is_gdb_keyword
  rw [List.any_eq_true]
  exact ⟨tok, h, by simp⟩

theorem is_gdb_command_of_mem (S : List (List (Fin 94))) (tok : List Char)
    (w : List (Fin 94)) (henc : encode_token tok = some w) (hw : w ∈ S) :
    is_gdb_command (build_trie S) tok = true := by
  unfold is_gdb_command
  rw [henc]
  exact (is_gdb_command_w_build S (List.ne_nil_of_mem hw) w).mpr
    (Or.inr ⟨w, hw, List.prefix_refl w⟩)

/-! ## Claim theorems -/

/-- C1 counterexample: the claim says the recognizer classifies a token as a
command iff the token is a member of the inserted set S, rejecting proper
prefixes.  With S = {"ab"} (encoded as child indices: 'a' = 64, 'b' = 65) the
proper prefix "a" is classified as a command even though it is not in S,
because `find_command` never consults the terminal flag of the node it
reaches. -/
theorem C1_cex_prefix_recognized :
    is_gdb_command_w (build_trie [[(64 : Fin 94), (65 : Fin 94)]]) [(64 : Fin 94)] = true ∧
    [(64 : Fin 94)] ∉ [[(64 : Fin 94), (65 : Fin 94)]] := by
  decide

/-- C1 (amended): for a trie built by inserting the nonempty list S of command
words, `find_command` as used by `is_gdb_command` classifies a token as a
command iff the token is empty or a (not necessarily proper) prefix of some
member of S — the walk must consume the token's full length along existing
children, but the terminal flag is never checked, so every prefix of an
inserted name is accepted. -/
theorem C1_recognizer_accepts_exactly_prefixes (S : List (List (Fin 94)))
    (w : List (Fin 94)) (hS : S ≠ []) :
    is_gdb_command_w (build_trie S) w = true ↔ w = [] ∨ ∃ s ∈ S, w <+: s :=
  is_gdb_command_w_build S hS w

/-- Witness for C1 at S = {"ab"}, token "a". -/
theorem C1_recognizer_witness :
    (([[(64 : Fin 94), (65 : Fin 94)]] : List (List (Fin 94))) ≠ []) ∧
    (is_gdb_command_w (build_trie [[(64 : Fin 94), (65 : Fin 94)]]) [(64 : Fin 94)] = true ↔
      [(64 : Fin 94)] = [] ∨
        ∃ s ∈ [[(64 : Fin 94), (65 : Fin 94)]], [(64 : Fin 94)] <+: s) :=
  ⟨by decide, C1_recognizer_accepts_exactly_prefixes _ _ (by decide)⟩

/-- C2 evidence (code bug): encoding the trie built from {"ab"} with
`store_trie`'s buffer path yields the bytes "ab" (no terminal marker for the
leaf — the `' '` marker is keyed on the parent's `end` flag), and `load_trie`
fails on every nonempty encoding: its recursive call leaves the child `NULL`
(the `!*trie` guard) and the code then dereferences that `NULL` child, so no
decoded trie recognizing the stored set is ever produced. -/
theorem C2_trie_round_trip_crashes :
    (store_trie 100 (insert_command create_node [(64 : Fin 94), (65 : Fin 94)]) 4096).1 =
      ['a', 'b'] ∧
    load_trie_from_buffer ['a', 'b'] = none ∧
    ∀ buf : List Char, buf ≠ [] → load_trie_from_buffer buf = none := by
  refine ⟨by decide, rfl, fun buf hbuf => ?_⟩
  match buf, hbuf with
  | _ :: _, _ => rfl

/-- Witness for C2's universally quantified conjunct at the buffer "x". -/
theorem C2_crash_witness : load_trie_from_buffer ['x'] = none :=
  C2_trie_round_trip_crashes.2.2 ['x'] (by decide)

/-- C6 counterexample: the claim quantifies over every name, but
`insert_symbol` rejects the empty name (`!*name` guard), so `find_symbol`
right after `insert_symbol` with name `""` finds nothing. -/
theorem C6_cex_empty_name :
    find_symbol (insert_symbol init_map [] 3 SymbolType.VAR) [] SymbolType.VAR = none := by
  decide

/-- C6 (amended): for every symbol table, every *nonempty* name of fewer than
1023 characters (so that the `strncpy` into the 1024-byte name field copies it
intact), every kind and every line number, `find_symbol` right after
`insert_symbol` returns the freshly inserted entry, whose name and kind equal
the inserted ones exactly. -/
theorem C6_find_after_insert (m : SymMap) (name : List Char) (linenum : Nat)
    (type : SymbolType) (h1 : name ≠ []) (h2 : name.length ≤ 1022) :
    find_symbol (insert_symbol m name linenum type) name type =
      some ⟨name, linenum, type⟩ :=
  find_symbol_insert m name linenum type h1 h2

/-- Witness for C6 at name "z", kind FUNC, line 9 in the empty table. -/
theorem C6_find_witness :
    find_symbol (insert_symbol init_map ['z'] 9 SymbolType.FUNC) ['z'] SymbolType.FUNC =
      some ⟨['z'], 9, SymbolType.FUNC⟩ :=
  C6_find_after_insert init_map ['z'] 9 SymbolType.FUNC (by decide) (by decide)

/-- C7: the line assembler on the two physical lines "foo \\\n" and "bar\n"
emits exactly one logical line "foo bar" with recorded line number 2 (the last
physical line of the merged group), and for every input the physical-line
counter `orig_linenum` ends at `1 + number of physical lines`, i.e. it
increments once per physical line regardless of joining. -/
theorem C7_line_assembler :
    (parse_gdbfile ["foo \\\n".toList, "bar\n".toList]).lines =
      [("foo bar".toList, 2)] ∧
    ∀ input : List (List Char), (parse_gdbfile input).counter = input.length + 1 := by
  constructor
  · decide
  · intro input
    unfold parse_gdbfile
    rw [parse_gdbfile_counter_foldl input ⟨[], 0, 1, []⟩]
    show 1 + input.length = input.length + 1
    omega

/-- C9: `is_gdb_keyword` returns true for a token iff the token equals one of
the eight fixed keywords if, else, while, for, break, continue, end, quit. -/
theorem C9_keyword_set (token : List Char) :
    is_gdb_keyword token = true ↔
      token ∈ ["if".toList, "else".toList, "while".toList, "for".toList,
        "break".toList, "continue".toList, "end".toList, "quit".toList] := by
  have hset : (["if".toList, "else".toList, "while".toList, "for".toList,
      "break".toList, "continue".toList, "end".toList, "quit".toList] :
      List (List Char)) = gdb_keywords := by decide
  rw [hset]
  unfold is_gdb_keyword
  rw [List.any_eq_true]
  constructor
  · rintro ⟨k, hk, hb⟩
    have : k = token := by simpa using hb
    rwa [this] at hk
  · intro h
    exact ⟨token, h, by simp⟩

/-- C10: after `calc_linenum_width` runs on the parsed line map, the
diagnostic line-number field width is one more than the number of decimal
digits of the maximum original line number seen, and 1 when no line was seen
(maximum 0); in particular the width is 3 when the maximum line number is
15. -/
theorem C10_linenum_width (input : List (List Char)) :
    (calc_linenum_width (parse_gdbfile input).max_linenum =
      if (parse_gdbfile input).max_linenum = 0 then 1
      else (Nat.digits 10 (parse_gdbfile input).max_linenum).length + 1) ∧
    calc_linenum_width 15 = 3 := by
  constructor
  · unfold calc_linenum_width
    rw [linenum_width_loop_digits _ _ le_rfl]
    by_cases hm : (parse_gdbfile input).max_linenum = 0
    · rw [if_pos hm, hm]
      simp
    · rw [if_neg hm]
      omega
  · decide

/-- A definitions table with a single environment-style entry whose name
contains a comma, as `insert_symbol` happily accepts. -/
def c3_cex_map : SymMap := insert_symbol init_map ['a', ',', 'b'] 0 SymbolType.VAR

/-- C3 counterexample: the claim quantifies over every all-`sourceLine==0`
table, but a name containing a comma breaks the `%lu,%[^,],%d,%lu` row format:
`%[^,]` stops at the comma inside the name and `%d` then fails on the rest of
it, so the row is discarded and the loaded table no longer finds the entry the
original table finds. -/
theorem C3_cex_comma_name :
    find_symbol c3_cex_map ['a', ',', 'b'] SymbolType.VAR =
      some ⟨['a', ',', 'b'], 0, SymbolType.VAR⟩ ∧
    c3_cex_map (fnv1a ['a', ',', 'b']) = [⟨['a', ',', 'b'], 0, SymbolType.VAR⟩] ∧
    find_symbol
      (load_map init_map defs_name 5 (store_map c3_cex_map defs_name 5)
        (store_map c3_cex_map defs_name 5).length)
      ['a', ',', 'b'] SymbolType.VAR = none := by
  refine ⟨?_, ?_, ?_⟩
  · unfold find_symbol c3_cex_map
    rw [insert_symbol_bucket init_map _ _ _ (by decide) (fnv1a ['a', ',', 'b']),
      if_pos rfl]
    decide
  · unfold c3_cex_map
    rw [insert_symbol_bucket init_map _ _ _ (by decide) (fnv1a ['a', ',', 'b']),
      if_pos rfl]
    rfl
  · have htext : store_map c3_cex_map defs_name 5 =
        'd' :: 'e' :: 'f' :: 's' :: '\n' ::
          store_row 838 ⟨['a', ',', 'b'], 0, SymbolType.VAR⟩ := by
      unfold store_map c3_cex_map
      rw [store_rows_single ['a', ',', 'b'] SymbolType.VAR (by decide),
        show (fnv1a ['a', ',', 'b']).val = 838 from by decide,
        show ['a', ',', 'b'].take 1023 = ['a', ',', 'b'] from rfl,
        show defs_name.take 5 = ['d', 'e', 'f', 's'] from by decide]
      simp only [List.cons_append, List.nil_append, List.singleton_append,
        List.append_assoc]
    rw [htext]
    decide

/-- C3 (amended): for every definitions table whose entries all have
`sourceLine == 0` and whose names are nonempty and comma-free (as every name
obtained from the environment is), writing the `defs` section with `store_map`
and reading it back with `load_map` into a fresh table (with the byte budget
`store_map` returned) yields a table on which `find_symbol` gives the same
result for every name and every concrete kind (`VAR`/`FUNC`; the `NONE`
wildcard can observe the reversed chain order); and every entry of a table
populated by such a load has `sourceLine == 0`, because `store_map` persists
only `sourceLine == 0` rows. -/
theorem C3_cache_round_trip (m : SymMap)
    (hzero : ∀ i : Fin 1024, ∀ e ∈ m i, e.linenum = 0)
    (hname : ∀ i : Fin 1024, ∀ e ∈ m i, e.name ≠ [] ∧ ∀ c ∈ e.name, c ≠ ',') :
    (∀ (name : List Char) (k : SymbolType), k ≠ SymbolType.NONE →
      find_symbol (load_map init_map defs_name 5 (store_map m defs_name 5)
          (store_map m defs_name 5).length) name k =
        find_symbol m name k) ∧
    (∀ j : Fin 1024, ∀ e ∈ load_map init_map defs_name 5 (store_map m defs_name 5)
        (store_map m defs_name 5).length j, e.linenum = 0) := by
  constructor
  · intro name k hk
    unfold find_symbol
    rw [load_store_buckets m hname (fnv1a name)]
    have hfull : (m (fnv1a name)).filter (fun e => e.linenum == 0) = m (fnv1a name) :=
      List.filter_eq_self.mpr (fun e he => by simp [hzero _ e he])
    rw [hfull]
    have hall : ∀ x ∈ m (fnv1a name), symbol_matches name k x = true →
        x = ⟨name, 0, k⟩ := by
      intro x hx hm
      unfold symbol_matches at hm
      simp only [Bool.and_eq_true, Bool.or_eq_true, decide_eq_true_eq] at hm
      obtain ⟨hn, hor⟩ := hm
      rcases hor with hNONE | ht
      · exact absurd hNONE hk
      · have hl := hzero _ x hx
        cases x
        simp only [Symbol.mk.injEq]
        exact ⟨hn, hl, ht.symm⟩
    have hall' : ∀ x ∈ (m (fnv1a name)).reverse, symbol_matches name k x = true →
        x = ⟨name, 0, k⟩ := fun x hx => hall x (List.mem_reverse.mp hx)
    rw [find?_eq_of_all_eq _ _ _ hall', find?_eq_of_all_eq _ _ _ hall,
      List.any_reverse]
  · intro j e he
    rw [load_store_buckets m hname j, List.mem_reverse] at he
    have := List.mem_filter.mp he
    simpa using this.2

/-- A well-formed all-environment definitions table for the C3 witness. -/
def c3_witness_map : SymMap := insert_symbol init_map ['p', 'c'] 0 SymbolType.VAR

/-- Witness for C3 at a one-entry table with name "pc". -/
theorem C3_round_trip_witness :
    find_symbol (load_map init_map defs_name 5 (store_map c3_witness_map defs_name 5)
        (store_map c3_witness_map defs_name 5).length) ['p', 'c'] SymbolType.VAR =
      find_symbol c3_witness_map ['p', 'c'] SymbolType.VAR :=
  (C3_cache_round_trip c3_witness_map
    (fun i e he => by
      rw [single_map_entries ['p', 'c'] 0 SymbolType.VAR (by decide) i e he])
    (fun i e he => by
      rw [single_map_entries ['p', 'c'] 0 SymbolType.VAR (by decide) i e he]
      exact ⟨by decide, by decide⟩)).1
    ['p', 'c'] SymbolType.VAR (by decide)

/-- C4: `is_valid_reference` rejects `$0`, `$$`, `$$3`, `$arg0`, `$arg12`,
`42`, `-7`, `3.14`, `-0.5` (for every trie), every fixed keyword, and every
name registered in the command trie; it accepts `my_var` and
`$my_convenience_var` whenever the trie does not classify them as commands
(the other five excluded categories reject them already by computation). -/
theorem C4_token_classifier :
    (∀ root : Option Trie,
      is_valid_reference root "$0".toList = false ∧
      is_valid_reference root "$$".toList = false ∧
      is_valid_reference root "$$3".toList = false ∧
      is_valid_reference root "$arg0".toList = false ∧
      is_valid_reference root "$arg12".toList = false ∧
      is_valid_reference root "42".toList = false ∧
      is_valid_reference root "-7".toList = false ∧
      is_valid_reference root "3.14".toList = false ∧
      is_valid_reference root "-0.5".toList = false) ∧
    (∀ (root : Option Trie) (kw : List Char), kw ∈ gdb_keywords →
      is_valid_reference root kw = false) ∧
    (∀ (S : List (List (Fin 94))) (tok : List Char) (w : List (Fin 94)),
      encode_token tok = some w → w ∈ S →
      is_valid_reference (build_trie S) tok = false) ∧
    (∀ root : Option Trie, is_gdb_command root "my_var".toList = false →
      is_valid_reference root "my_var".toList = true) ∧
    (∀ root : Option Trie, is_gdb_command root "$my_convenience_var".toList = false →
      is_valid_reference root "$my_convenience_var".toList = true) := by
  refine ⟨?_, ?_, ?_, ?_, ?_⟩
  · intro root
    refine ⟨rfl, rfl, rfl, rfl, rfl, rfl, ?_, ?_, ?_⟩ <;>
      first
        | (cases h : is_gdb_command root "-7".toList <;>
            simp only [is_valid_reference, h] <;> decide)
        | (cases h : is_gdb_command root "3.14".toList <;>
            simp only [is_valid_reference, h] <;> decide)
        | (cases h : is_gdb_command root "-0.5".toList <;>
            simp only [is_valid_reference, h] <;> decide)
  · intro root kw hkw
    exact valid_ref_false_of_keyword root kw (is_gdb_keyword_of_mem kw hkw)
  · intro S tok w henc hw
    exact valid_ref_false_of_command _ tok (is_gdb_command_of_mem S tok w henc hw)
  · intro root h
    unfold is_valid_reference
    rw [h]
    decide
  · intro root h
    unfold is_valid_reference
    rw [h]
    decide

/-- Witness for C4 at the trie built from {"print"} and the unregistered
identifier `my_var` against the empty (null-root) trie. -/
theorem C4_classifier_witness :
    is_valid_reference
      (build_trie [[(79 : Fin 94), (81 : Fin 94), (72 : Fin 94), (77 : Fin 94),
        (83 : Fin 94)]]) "print".toList = false ∧
    is_valid_reference none "my_var".toList = true :=
  ⟨C4_token_classifier.2.2.1
      [[(79 : Fin 94), (81 : Fin 94), (72 : Fin 94), (77 : Fin 94), (83 : Fin 94)]]
      "print".toList
      [(79 : Fin 94), (81 : Fin 94), (72 : Fin 94), (77 : Fin 94), (83 : Fin 94)]
      (by decide) (by decide),
   C4_token_classifier.2.2.2.1 none (by decide)⟩

/-- A definitions table in which a script-discovered entry (`linenum 5`) sits
behind an environment entry (`linenum 0`) in the same bucket chain: the
environment entry was inserted later, so it is at the chain head. -/
def c5_cex_defs : SymMap :=
  insert_symbol (insert_symbol init_map ['x'] 5 SymbolType.FUNC) ['x'] 0 SymbolType.FUNC

/-- C5 counterexample: the claim demands one unused diagnostic for every
`sourceLine > 0` entry not found in the references table, for every pair of
tables.  Here the entry ("x", FUNC, line 5) is unreferenced, yet
`report_unused` emits nothing, because its chain walk
(`def != NULL && def->linenum != 0`) stops at the `linenum == 0` entry in
front of it. -/
theorem C5_cex_masked_entry :
    (⟨['x'], 5, SymbolType.FUNC⟩ : Symbol) ∈ c5_cex_defs (fnv1a ['x']) ∧
    find_symbol init_map ['x'] SymbolType.FUNC = none ∧
    report_unused false false false c5_cex_defs init_map = [] := by
  have hb : ∀ i : Fin 1024, c5_cex_defs i =
      if i = fnv1a ['x'] then
        [⟨['x'], 0, SymbolType.FUNC⟩, ⟨['x'], 5, SymbolType.FUNC⟩] else [] := by
    intro i
    unfold c5_cex_defs
    rw [insert_symbol_bucket _ _ _ _ (by decide) i,
      insert_symbol_bucket _ _ _ _ (by decide) i]
    by_cases hi : i = fnv1a ['x']
    · simp only [if_pos hi]
      rfl
    · simp only [if_neg hi]
      rfl
  refine ⟨?_, ?_, ?_⟩
  · rw [hb (fnv1a ['x']), if_pos rfl]
    decide
  · decide
  · unfold report_unused
    rw [if_neg (by simp), List.flatMap_eq_nil_iff]
    intro i _
    rw [hb i]
    by_cases hi : i = fnv1a ['x']
    · rw [if_pos hi]
      decide
    · rw [if_neg hi]
      rfl

/-- C5 (amended): with all warnings enabled, whenever every bucket chain of
the definitions table lists its `sourceLine > 0` entries before any
`sourceLine == 0` entry (which holds for the tables the program builds,
because environment entries are inserted before extraction and later inserts
prepend), `report_unused` emits exactly one diagnostic per `sourceLine > 0`
entry whose (name, kind) is not found in the references table, carrying that
entry's definition line, in bucket-then-chain order; and — for every pair of
tables and every flag setting — an entry with `sourceLine == 0` never
produces an unused diagnostic. -/
theorem C5_report_unused :
    (∀ (defs refs : SymMap),
      (∀ i : Fin 1024, ∀ d ∈ (defs i).dropWhile (fun d => d.linenum != 0),
        (d.linenum != 0) = false) →
      report_unused false false false defs refs =
        (List.finRange 1024).flatMap (fun i =>
          (defs i).filter
            (fun d => (find_symbol refs d.name d.type).isNone && d.linenum != 0))) ∧
    (∀ (b1 b2 b3 : Bool) (defs refs : SymMap) (e : Symbol),
      e ∈ report_unused b1 b2 b3 defs refs → e.linenum ≠ 0) := by
  constructor
  · intro defs refs hord
    exact report_unused_eq_of_sorted defs refs hord
  · intro b1 b2 b3 defs refs e he
    exact mem_report_unused_linenum b1 b2 b3 defs refs e he

/-- A definitions table with a single script-discovered entry for the C5
witness. -/
def c5_witness_defs : SymMap := insert_symbol init_map ['y'] 7 SymbolType.VAR

/-- Witness for C5 at a table with the single unreferenced entry
("y", VAR, line 7). -/
theorem C5_report_witness :
    report_unused false false false c5_witness_defs init_map =
      (List.finRange 1024).flatMap (fun i =>
        (c5_witness_defs i).filter
          (fun d => (find_symbol init_map d.name d.type).isNone && d.linenum != 0)) :=
  C5_report_unused.1 c5_witness_defs init_map (fun i d hd => by
    have hb : c5_witness_defs i =
        if i = fnv1a ['y'] then [⟨['y'], 7, SymbolType.VAR⟩] else [] := by
      unfold c5_witness_defs
      rw [insert_symbol_bucket _ _ _ _ (by decide) i]
      by_cases hi : i = fnv1a ['y']
      · simp only [if_pos hi]
        rfl
      · simp only [if_neg hi]
        rfl
    rw [hb] at hd
    by_cases hi : i = fnv1a ['y']
    · rw [if_pos hi,
        show List.dropWhile (fun d : Symbol => d.linenum != 0)
          [⟨['y'], 7, SymbolType.VAR⟩] = [] from rfl] at hd
      exact absurd hd (List.not_mem_nil d)
    · rw [if_neg hi,
        show List.dropWhile (fun d : Symbol => d.linenum != 0)
          ([] : List Symbol) = [] from rfl] at hd
      exact absurd hd (List.not_mem_nil d))

/-- C8 counterexample: the claim requires at least one digit after the decimal
point, but `is_floating_point` accepts "5." — the loop only records that a
point was seen and returns that flag at the end of the token. -/
theorem C8_cex_trailing_point :
    is_floating_point ['5', '.'] = true ∧
    ¬ ∃ d1 d2 : List Char, d1.all (·.isDigit) = true ∧ d2.all (·.isDigit) = true ∧
      d2 ≠ [] ∧ strip_sign ['5', '.'] = d1 ++ '.' :: d2 := by
  constructor
  · decide
  · rintro ⟨d1, d2, -, -, hne, heq⟩
    rw [show strip_sign ['5', '.'] = ['5', '.'] from rfl] at heq
    have hlen := congrArg List.length heq
    simp only [List.length_append, List.length_cons, List.length_nil] at hlen
    have hd2 : 0 < d2.length := List.length_pos.mpr hne
    have hd1 : d1.length = 0 := by omega
    rw [List.eq_nil_of_length_eq_zero hd1, List.nil_append] at heq
    have h5 := congrArg List.head? heq
    simp only [List.head?_cons, Option.some.injEq] at h5
    exact absurd h5 (by decide)

/-- C8 (amended): `is_floating_point` returns true for a token iff, after the
optional leading sign, the token is a (possibly empty) run of digits, exactly
one decimal point, and another (possibly empty) run of digits — the code
requires the point but no digit before or after it. -/
theorem C8_float_filter (token : List Char) :
    is_floating_point token = true ↔
      ∃ d1 d2 : List Char, d1.all (·.isDigit) = true ∧ d2.all (·.isDigit) = true ∧
        strip_sign token = d1 ++ '.' :: d2 := by
  cases token with
  | nil =>
    simp only [is_floating_point, Bool.false_eq_true, false_iff]
    rintro ⟨d1, d2, -, -, h⟩
    rw [show strip_sign [] = [] from rfl] at h
    cases d1 <;> simp at h
  | cons c rest =>
    rw [show is_floating_point (c :: rest) =
      is_floating_point_loop false (strip_sign (c :: rest)) from rfl]
    exact float_loop_false _

end Gdblint
